import Mathlib

/-!
Shallow embedding of the album-metadata tagging scripts (`meta.py`).

Python strings are modelled as `List Char` (`Str`); Python `int` as `Int`
(indices that are provably non-negative use `Nat`).  Pure functions of the
source become Lean functions with the same names; the mutable `EasyID3` tag
dictionary becomes explicit state passing over `Tags := Str → Option Str`;
interactive console input becomes an explicit list of input lines threaded
through the prompt functions, with `Option` capturing exhaustion of input
(end-of-file) and `Except` capturing the control-flow exceptions
`UserQuit` / `UserCancel` / `UserDone`.
-/

/-- Python `str`, modelled as a list of characters. -/
abbrev Str := List Char

/-- `MAX_NUMBER_OF_MISSES` from `meta.py`. -/
def MAX_NUMBER_OF_MISSES : Nat := 2

/-- The `Match` dataclass: `start`, `length` (Python ints, possibly `-1`
for the sentinel) and the tuple of mismatch offsets `misses`. -/
structure Match where
  start : Int
  length : Int
  misses : List Nat
deriving DecidableEq, Repr

/-- `Match.__eq__`: equality decided only by `(start, length)`. -/
def matchEq (a b : Match) : Bool :=
  a.start == b.start && a.length == b.length

/-- `USER_DEF_MATCH = Match(-1, -1)`. -/
def USER_DEF_MATCH : Match := ⟨-1, -1, []⟩

/-- `NO_MATCH = Match(0, 0)`. -/
def NO_MATCH : Match := ⟨0, 0, []⟩

/-- `SKIPPABLE_CHARS = '()[]{}-_'`. -/
def SKIPPABLE_CHARS : Str := ['(', ')', '[', ']', '{', '}', '-', '_']

/-- `isSkippableChar`: whitespace or one of the literal skippable chars. -/
def isSkippableChar (ch : Char) : Bool :=
  ch.isWhitespace || SKIPPABLE_CHARS.contains ch

/-- `lowercaseSkippedString`: lowercase the string, then drop skippable
characters. -/
def lowercaseSkippedString (string : Str) : Str :=
  (string.map Char.toLower).filter (fun ch => !isSkippableChar ch)

/-- Recursive worker for `makeSkippedStringMap`, carrying the index of the
head character. -/
def makeSkippedStringMapAux : Str → Nat → List Nat
  | [], _ => []
  | ch :: rest, idx =>
    if isSkippableChar ch then makeSkippedStringMapAux rest (idx + 1)
    else idx :: makeSkippedStringMapAux rest (idx + 1)

/-- `makeSkippedStringMap`: indices of the non-skippable characters of the
original string, in order. -/
def makeSkippedStringMap (string : Str) : List Nat :=
  makeSkippedStringMapAux string 0

/-- Recursive worker for `findMismatchedCharIndices`. -/
def findMismatchedCharIndicesAux : Str → Str → Nat → List Nat
  | a :: as, b :: bs, idx =>
    if a ≠ b then idx :: findMismatchedCharIndicesAux as bs (idx + 1)
    else findMismatchedCharIndicesAux as bs (idx + 1)
  | _, _, _ => []

/-- `findMismatchedCharIndices`: indices where two equal-length strings
disagree. -/
def findMismatchedCharIndices (a b : Str) : List Nat :=
  findMismatchedCharIndicesAux a b 0

/-- The window `string[offset : offset + len]` of a Python slice. -/
def windowAt (string : Str) (offset len : Nat) : Str :=
  (string.drop offset).take len

/-- The sliding-window scan of `matchStrings`: try offsets `o`, `o+1`, …
for `fuel` steps, returning at the first offset whose mismatch count is
within `MAX_NUMBER_OF_MISSES`. -/
def matchFrom (string pattern : Str) : Nat → Nat → Match
  | _, 0 => NO_MATCH
  | offset, fuel + 1 =>
    let windowedString := windowAt string offset pattern.length
    let mismatchedCharIdxs := findMismatchedCharIndices windowedString pattern
    if mismatchedCharIdxs.length ≤ MAX_NUMBER_OF_MISSES then
      ⟨(offset : Int), (pattern.length : Int), mismatchedCharIdxs.map (· + offset)⟩
    else matchFrom string pattern (offset + 1) fuel

/-- `matchStrings`: slide `pattern` across `string` and return the first
window with at most `MAX_NUMBER_OF_MISSES` mismatches, else `NO_MATCH`. -/
def matchStrings (string pattern : Str) : Match :=
  if pattern.length > string.length then NO_MATCH
  else matchFrom string pattern 0 (string.length - pattern.length + 1)

/-- Offset `o` is accepted by the scan of `matchStrings`: the window at `o`
has at most `MAX_NUMBER_OF_MISSES` mismatches against the pattern. -/
def qualifies (string pattern : Str) (offset : Nat) : Prop :=
  (findMismatchedCharIndices (windowAt string offset pattern.length) pattern).length
    ≤ MAX_NUMBER_OF_MISSES

instance (string pattern : Str) (offset : Nat) :
    Decidable (qualifies string pattern offset) := by
  unfold qualifies; infer_instance

/-- The mismatch offsets recorded by `matchStrings` when it accepts
offset `o`: window-relative mismatch indices shifted by `o`. -/
def missesAt (string pattern : Str) (offset : Nat) : List Nat :=
  (findMismatchedCharIndices (windowAt string offset pattern.length) pattern).map
    (· + offset)

/-- The loop body of `identifyTrackFromFilePath`: fold one tracklist title
into the running best `(title guess, match)`.  `file` is the normalized
filename stem.  Comparisons of `Match` values use `matchEq`
(`Match.__eq__`). -/
def identifyStep (file : Str) (best : Option Str × Match) (title : Str) :
    Option Str × Match :=
  let skippedTitle := lowercaseSkippedString title
  let m := matchStrings file skippedTitle
  if matchEq m NO_MATCH then best
  else if m.length > best.2.length ∧ m.misses.length ≤ best.2.misses.length then
    (some title, m)
  else if m.misses.length < best.2.misses.length then (some title, m)
  else if matchEq best.2 NO_MATCH then (some title, m)
  else best

/-- `identifyTrackFromFilePath`, applied to the already-extracted file stem:
fold `identifyStep` over the tracklist starting from `(None, NO_MATCH)`. -/
def identifyTrackFromFilePath (stem : Str) (tracklist : List Str) :
    Option Str × Match :=
  tracklist.foldl (identifyStep (lowercaseSkippedString stem)) (none, NO_MATCH)

/-- Modelled from the spec's words for `selectBestTitle` (§4.3): one step of
the running-best update, written exactly as the tie-break rules of the
claim: skip `NoMatch` results; replace the best when (1) strictly longer
and no more mismatches, or (2) strictly fewer mismatches, or (3) no best
has been chosen yet; otherwise keep the earlier entry. -/
def selectBestTitleStep (file : Str) (best : Option Str × Match) (title : Str) :
    Option Str × Match :=
  let m := matchStrings file (lowercaseSkippedString title)
  if m = NO_MATCH then best
  else if m.length > best.2.length ∧ m.misses.length ≤ best.2.misses.length then
    (some title, m)
  else if m.misses.length < best.2.misses.length then (some title, m)
  else if best.2 = NO_MATCH then (some title, m)
  else best

/-- Modelled from the spec's words for `selectBestTitle` (§4.3): scan the
tracklist in order, maintaining the running best under the three
priority rules. -/
def selectBestTitle (stem : Str) (tracklist : List Str) : Option Str × Match :=
  tracklist.foldl (selectBestTitleStep (lowercaseSkippedString stem)) (none, NO_MATCH)

/-- One element of the formatter's working list: an original character or
an inserted highlight marker string. -/
inductive FmtToken where
  | chr (c : Char)
  | mark (s : Str)
deriving DecidableEq, Repr

/-- Python `list.insert`: insert before position `i`, clamping `i` to the
end of the list when it is out of range. -/
def pyInsert (l : List FmtToken) (i : Nat) (x : FmtToken) : List FmtToken :=
  if i ≤ l.length then l.insertIdx i x else l ++ [x]

/-- `formatPartiallyMatchedString`: bracket the matched span with
`START`/`END` markers and each mismatched character with `SKIP`/`START`
markers, inserting from the highest index to the lowest.  The output is the
token list whose rendering is the Python return value. -/
def formatPartiallyMatchedString (string : Str) (m : Match)
    (START SKIP ENDM : Str) : List FmtToken :=
  let indexMap := makeSkippedStringMap string
  let start := indexMap.getD m.start.toNat 0
  let stop := indexMap.getD (m.start + m.length - 1).toNat 0 + 1
  let skips := m.misses.map (fun idx => indexMap.getD idx 0)
  let tokens := string.map FmtToken.chr
  let tokens := pyInsert tokens stop (.mark ENDM)
  let tokens := skips.reverse.foldl
    (fun ts skip => pyInsert (pyInsert ts (skip + 1) (.mark START)) skip (.mark SKIP))
    tokens
  pyInsert tokens start (.mark START)

/-- Remove every inserted marker token, keeping the original characters. -/
def stripMarkers (tokens : List FmtToken) : Str :=
  tokens.filterMap (fun t => match t with | .chr c => some c | .mark _ => none)

/-- Render the token list to the string `''.join(tokens)` returns. -/
def renderTokens (tokens : List FmtToken) : Str :=
  tokens.flatMap (fun t => match t with | .chr c => [c] | .mark s => s)

/-- The stored tags of one audio file (the `EasyID3` dictionary): a partial
map from tag name to stored value. -/
def Tags := Str → Option Str

/-- `audio[tag] = value` on the tag dictionary. -/
def setTag (audio : Tags) (tag value : Str) : Tags :=
  fun t => if t = tag then some value else audio t

/-- `del audio[tag]` on the tag dictionary. -/
def delTag (audio : Tags) (tag : Str) : Tags :=
  fun t => if t = tag then none else audio t

/-- The first loop of `writeMetadata`: set every planned tag whose stored
value differs, tracking `doWrite`. -/
def writeMetadataSets (acc : Tags × Bool) (metadata : List (Str × Str)) :
    Tags × Bool :=
  metadata.foldl
    (fun acc kv => if acc.1 kv.1 = some kv.2 then acc else (setTag acc.1 kv.1 kv.2, true))
    acc

/-- The second loop of `writeMetadata`: delete every present removable tag,
tracking `doWrite`. -/
def writeMetadataRemoves (acc : Tags × Bool) (tagsToRemove : List Str) :
    Tags × Bool :=
  tagsToRemove.foldl
    (fun acc tag => if acc.1 tag = none then acc else (delTag acc.1 tag, true))
    acc

/-- `writeMetadata`: compare each planned value against the stored one, set
the differing tags, delete the present removable tags, and save exactly
when something changed.  The first component is the persisted file state
(`audio.save()` runs only when `doWrite` is true); the second is the
returned `doWrite` flag. -/
def writeMetadata (audio : Tags) (metadata : List (Str × Str))
    (tagsToRemove : List Str) : Tags × Bool :=
  let acc := writeMetadataRemoves (writeMetadataSets (audio, false) metadata) tagsToRemove
  (if acc.2 then acc.1 else audio, acc.2)

/-- The changed-file counter loop of the apply functions: one `writeMetadata`
call per file state, counting the files whose write reported a change. -/
def countChangedFiles (files : List (Tags × List (Str × Str)))
    (tagsToRemove : List Str) : Nat :=
  files.foldl
    (fun counter f =>
      if (writeMetadata f.1 f.2 tagsToRemove).2 then counter + 1 else counter)
    0

/-- The control-flow exceptions of the review workflow:
`UserQuit`, `UserCancel`, `UserDone`. -/
inductive Sig where
  | quit
  | cancel
  | done
deriving DecidableEq, Repr

/-- The digit fold of Python `int()` on a string of decimal digits. -/
def digitsToNat (ds : Str) : Nat :=
  ds.foldl (fun n c => n * 10 + (c.toNat - 48)) 0

/-- Parse a non-empty all-digit string, else fail. -/
def parseDigits (ds : Str) : Option Nat :=
  if ds ≠ [] ∧ ds.all Char.isDigit then some (digitsToNat ds) else none

/-- Python `int(response)`: an optional leading minus sign followed by
decimal digits; anything else raises `ValueError` (here: `none`). -/
def parseInt (r : Str) : Option Int :=
  match r with
  | [] => none
  | c :: ds =>
    if c = '-' then (parseDigits ds).map (fun n => -(n : Int))
    else (parseDigits (c :: ds)).map (fun n => (n : Int))

/-- Python `str.lower()` on a response line. -/
def lowerStr (s : Str) : Str := s.map Char.toLower

/-- Signal strings of `meta.py`: `QUIT = 'q'`, `CANCEL = 's'`, `DONE = 'd'`,
`QUIT_CANCEL = QUIT + CANCEL`, `QUIT_DONE = QUIT + DONE`. -/
def QUIT_CANCEL : Str := ['q', 's']

/-- `QUIT_DONE = QUIT + DONE`. -/
def QUIT_DONE : Str := ['q', 'd']

/-- `promptBoundedInteger`: consume input lines until one is an empty line
(raising cancel or done when the signal set allows it), a quit line, or an
in-range integer.  `none` models exhausting the input (end-of-file). -/
def promptBoundedInteger (lower upper : Int) (signal : Str) :
    List Str → Option (Except Sig Int × List Str)
  | [] => none
  | response :: rest =>
    if response = [] ∧ 's' ∈ signal then some (.error .cancel, rest)
    else if response = [] ∧ 'd' ∈ signal then some (.error .done, rest)
    else if lowerStr response = ['q'] ∧ 'q' ∈ signal then some (.error .quit, rest)
    else
      match parseInt response with
      | none => promptBoundedInteger lower upper signal rest
      | some choice =>
        if choice < lower ∨ choice > upper then
          promptBoundedInteger lower upper signal rest
        else some (.ok choice, rest)

/-- `promptTrackSelect`: bounded choice in `[0, len(tracklist)]` with the
`QUIT_CANCEL` signal set; `0` means "skip this file" (`None`), `k ≥ 1`
selects `tracklist[k-1]`. -/
def promptTrackSelect (tracklist : List Str) (inputs : List Str) :
    Option (Except Sig (Option Str) × List Str) :=
  match promptBoundedInteger 0 (tracklist.length : Int) QUIT_CANCEL inputs with
  | none => none
  | some (.error sg, rest) => some (.error sg, rest)
  | some (.ok choice, rest) =>
    some (.ok (if choice = 0 then none else some (tracklist.getD (choice - 1).toNat [])),
      rest)

/-- The `PathTitleMatch` dataclass. -/
structure PathTitleMatch where
  path : Str
  mtch : Match
  title : Str
deriving DecidableEq, Repr

instance : Inhabited PathTitleMatch := ⟨⟨[], NO_MATCH, []⟩⟩

/-- `PathTitleMatch.__bool__`: true iff a title is given. -/
def ptmBool (ptm : PathTitleMatch) : Bool := ptm.title.length ≠ 0

/-- Outcome of one iteration of the `promptChanges` loop body after the
selection prompt: continue looping, finish (done), or abort (quit). -/
inductive StepOut where
  | cont
  | finished
  | aborted
deriving DecidableEq, Repr

/-- The title-choice step of `promptChanges` (lines after a file has been
selected): run `promptTrackSelect`; on cancel the handler keeps every
candidate unchanged and loops; on quit the run aborts; on a choice the
selected candidate's title and match are overwritten in place. -/
def titleChoiceStep (tracklist : List Str) (ptms : List PathTitleMatch)
    (choice : Int) (inputs : List Str) :
    Option (StepOut × List PathTitleMatch × List Str) :=
  match promptTrackSelect tracklist inputs with
  | none => none
  | some (.error .cancel, rest) => some (.cont, ptms, rest)
  | some (.error .done, rest) => some (.finished, ptms, rest)
  | some (.error .quit, rest) => some (.aborted, ptms, rest)
  | some (.ok newTitle, rest) =>
    let idx := (choice - 1).toNat
    let ptm := ptms.getD idx default
    let ptm := { ptm with title := newTitle.getD [], mtch := USER_DEF_MATCH }
    some (.cont, ptms.set idx ptm, rest)

/-- The `promptChanges` loop with explicit fuel: select a candidate
(`QUIT_DONE` signals), then run the title-choice step; done returns the
current candidate list, quit propagates as `.error ()`. -/
def promptChangesFuel (tracklist : List Str) :
    Nat → List PathTitleMatch → List Str →
    Option (Except Unit (List PathTitleMatch) × List Str)
  | 0, _, _ => none
  | fuel + 1, ptms, inputs =>
    match promptBoundedInteger 1 (ptms.length : Int) QUIT_DONE inputs with
    | none => none
    | some (.error .done, rest) => some (.ok ptms, rest)
    | some (.error .quit, rest) => some (.error (), rest)
    | some (.error .cancel, rest) => promptChangesFuel tracklist fuel ptms rest
    | some (.ok choice, rest) =>
      match titleChoiceStep tracklist ptms choice rest with
      | none => none
      | some (.cont, ptms', rest') => promptChangesFuel tracklist fuel ptms' rest'
      | some (.finished, ptms', rest') => some (.ok ptms', rest')
      | some (.aborted, _, rest') => some (.error (), rest')

/-- `promptChanges`: the loop runs with enough fuel for the given input
list (every iteration consumes at least one input line). -/
def promptChanges (ptms : List PathTitleMatch) (tracklist : List Str)
    (inputs : List Str) : Option (Except Unit (List PathTitleMatch) × List Str) :=
  promptChangesFuel tracklist (inputs.length + 1) ptms inputs

/-- Observable events of the interactive album run: the review workflow
terminating (aborted or committed) and each persistence call
(`audio.save()`). -/
inductive Event where
  | reviewEnded (aborted : Bool)
  | saved (path : Str)
deriving DecidableEq, Repr

/-- The write phase of `applyMetadataFromAlbumFileInteractively` after the
review workflow: write every candidate that carries a title, emitting a
`saved` event for each persistence call and counting changed files.
`fileTags` gives the stored tags of each file; `metadataFor` is the merged
per-file write plan (title, tracknumber and the resolved tag options). -/
def applyWritePhase (fileTags : Str → Tags)
    (metadataFor : PathTitleMatch → List (Str × Str)) (tagsToRemove : List Str)
    (acc : List Event × Nat) (ptms : List PathTitleMatch) : List Event × Nat :=
  ptms.foldl
    (fun acc ptm =>
      if ptmBool ptm then
        if (writeMetadata (fileTags ptm.path) (metadataFor ptm) tagsToRemove).2 then
          (acc.1 ++ [.saved ptm.path], acc.2 + 1)
        else acc
      else acc)
    acc

/-- The interactive album run after option resolution and candidate
identification (`applyMetadataFromAlbumFileInteractively`, lines 536–563):
run the review workflow on the given inputs, then — only if it committed —
run the write loop.  Returns the event trace and the changed-file count. -/
def runAlbumApply (ptms : List PathTitleMatch) (tracklist : List Str)
    (inputs : List Str) (fileTags : Str → Tags)
    (metadataFor : PathTitleMatch → List (Str × Str))
    (tagsToRemove : List Str) : List Event × Nat :=
  match promptChanges ptms tracklist inputs with
  | none => ([], 0)
  | some (.error _, _) => ([.reviewEnded true], 0)
  | some (.ok finalPtms, _) =>
    applyWritePhase fileTags metadataFor tagsToRemove ([.reviewEnded false], 0) finalPtms

/-! ### Matcher lemmas -/

lemma matchFrom_found (s p : Str) :
    ∀ (fuel offset k : Nat), k < fuel →
    qualifies s p (offset + k) → (∀ j, j < k → ¬ qualifies s p (offset + j)) →
    matchFrom s p offset fuel =
      ⟨((offset + k : Nat) : Int), (p.length : Int), missesAt s p (offset + k)⟩ := by
  intro fuel
  induction fuel with
  | zero => intro offset k hk; omega
  | succ n ih =>
    intro offset k hk hq hmin
    rw [matchFrom]
    cases k with
    | zero =>
      rw [if_pos (by simpa [qualifies] using hq)]
      simp [missesAt]
    | succ k =>
      rw [if_neg (by simpa [qualifies] using hmin 0 (Nat.succ_pos k))]
      have heq : offset + 1 + k = offset + (k + 1) := by omega
      have := ih (offset + 1) k (by omega)
        (by rw [heq]; exact hq)
        (by intro j hj
            have : offset + 1 + j = offset + (j + 1) := by omega
            rw [this]
            exact hmin (j + 1) (by omega))
      rw [this, heq]

lemma matchFrom_none (s p : Str) :
    ∀ (fuel offset : Nat), (∀ k, k < fuel → ¬ qualifies s p (offset + k)) →
    matchFrom s p offset fuel = NO_MATCH := by
  intro fuel
  induction fuel with
  | zero => intro offset _; rw [matchFrom]
  | succ n ih =>
    intro offset hnone
    rw [matchFrom]
    rw [if_neg (by simpa [qualifies] using hnone 0 (Nat.succ_pos n))]
    exact ih (offset + 1) (by
      intro k hk
      have : offset + 1 + k = offset + (k + 1) := by omega
      rw [this]
      exact hnone (k + 1) (by omega))

lemma matchStrings_gt (s p : Str) (h : p.length > s.length) :
    matchStrings s p = NO_MATCH := by
  rw [matchStrings, if_pos h]

lemma matchStrings_none (s p : Str) (hle : p.length ≤ s.length)
    (h : ∀ o, o ≤ s.length - p.length → ¬ qualifies s p o) :
    matchStrings s p = NO_MATCH := by
  rw [matchStrings, if_neg (by omega)]
  exact matchFrom_none s p _ 0 (by intro k hk; simpa using h k (by omega))

lemma matchStrings_found (s p : Str) (hle : p.length ≤ s.length) (o : Nat)
    (ho : o ≤ s.length - p.length) (hq : qualifies s p o)
    (hmin : ∀ j, j < o → ¬ qualifies s p j) :
    matchStrings s p = ⟨(o : Int), (p.length : Int), missesAt s p o⟩ := by
  rw [matchStrings, if_neg (by omega)]
  have := matchFrom_found s p (s.length - p.length + 1) 0 o (by omega)
    (by simpa using hq) (by simpa using hmin)
  simpa using this

lemma matchStrings_cases (s p : Str) :
    matchStrings s p = NO_MATCH ∨
    ∃ o : Nat, o + p.length ≤ s.length ∧ qualifies s p o ∧
      (∀ j, j < o → ¬ qualifies s p j) ∧
      matchStrings s p = ⟨(o : Int), (p.length : Int), missesAt s p o⟩ := by
  by_cases hgt : p.length > s.length
  · exact Or.inl (matchStrings_gt s p hgt)
  · by_cases hex : ∃ o, o ≤ s.length - p.length ∧ qualifies s p o
    · obtain ⟨o, hoo, hoq⟩ := hex
      have hexq : ∃ o, qualifies s p o := ⟨o, hoq⟩
      classical
      let o₀ := Nat.find hexq
      refine Or.inr ⟨o₀, ?_, Nat.find_spec hexq, fun j hj => Nat.find_min hexq hj, ?_⟩
      · have : o₀ ≤ o := Nat.find_min' hexq hoq
        omega
      · exact matchStrings_found s p (by omega) o₀
          (by have : o₀ ≤ o := Nat.find_min' hexq hoq; omega)
          (Nat.find_spec hexq) (fun j hj => Nat.find_min hexq hj)
    · push_neg at hex
      exact Or.inl (matchStrings_none s p (by omega) (fun o ho => hex o ho))

lemma findMismatchedCharIndicesAux_self :
    ∀ (a : Str) (i : Nat), findMismatchedCharIndicesAux a a i = [] := by
  intro a
  induction a with
  | nil => intro i; rfl
  | cons c cs ih =>
    intro i
    rw [findMismatchedCharIndicesAux, if_neg (by simp)]
    exact ih (i + 1)

/-- `p` occurs exactly at offset `o` of `s`: the window of `p`'s length at
`o` equals `p`. -/
def occursAt (s p : Str) (o : Nat) : Prop :=
  windowAt s o p.length = p

instance (s p : Str) (o : Nat) : Decidable (occursAt s p o) := by
  unfold occursAt; infer_instance

lemma occursAt_le (s p : Str) (o : Nat) (hp : 0 < p.length)
    (ho : occursAt s p o) : o + p.length ≤ s.length := by
  have hlen : (windowAt s o p.length).length = p.length := by rw [ho]
  simp only [windowAt, List.length_take, List.length_drop] at hlen
  omega

lemma occursAt_qualifies (s p : Str) (o : Nat) (ho : occursAt s p o) :
    qualifies s p o ∧ missesAt s p o = [] := by
  unfold qualifies missesAt
  rw [ho, findMismatchedCharIndices, findMismatchedCharIndicesAux_self]
  exact ⟨by simp [MAX_NUMBER_OF_MISSES], rfl⟩

/-- C1: for non-empty `s` and `p`, `matchStrings` returns `NO_MATCH` when
the pattern is longer than the haystack; otherwise it returns the match at
the smallest offset in `[0, len s - len p]` whose window has at most 2
mismatches against `p`, with length `len p`, never scanning past the first
qualifying offset, and `NO_MATCH` when no offset qualifies. -/
theorem matchStrings_leftmost_spec (s p : Str) (hs : 0 < s.length)
    (hp : 0 < p.length) :
    (p.length > s.length → matchStrings s p = NO_MATCH) ∧
    (p.length ≤ s.length →
      ((∀ o, o ≤ s.length - p.length → ¬ qualifies s p o) →
        matchStrings s p = NO_MATCH) ∧
      (∀ o, o ≤ s.length - p.length → qualifies s p o →
        (∀ j, j < o → ¬ qualifies s p j) →
        matchStrings s p = ⟨(o : Int), (p.length : Int), missesAt s p o⟩)) := by
  refine ⟨matchStrings_gt s p, fun hle => ⟨matchStrings_none s p hle, ?_⟩⟩
  intro o ho hq hmin
  exact matchStrings_found s p hle o ho hq hmin

/-- Witness for C1: on `s = "xyzabc"`, `p = "abc"`, offsets `0`, `1`, `2`
all have three mismatches, so the scan accepts the exact window at
offset `3`. -/
theorem matchStrings_leftmost_spec_witness :
    matchStrings "xyzabc".toList "abc".toList =
      ⟨3, 3, missesAt "xyzabc".toList "abc".toList 3⟩ :=
  ((matchStrings_leftmost_spec "xyzabc".toList "abc".toList (by decide)
    (by decide)).2 (by decide)).2 3 (by decide) (by decide)
    (by decide)

/-- C5 counterexample: `"b"` occurs exactly in `"ab"` (at offset `1`), but
`matchStrings "ab" "b"` accepts the earlier window at offset `0` with one
mismatch, so the returned mismatch list is not empty and the start is not
an occurrence offset. -/
theorem matchStrings_exact_substring_cex :
    (∃ o, occursAt ['a', 'b'] ['b'] o) ∧
    ¬ ((matchStrings ['a', 'b'] ['b']).misses = [] ∧
       occursAt ['a', 'b'] ['b'] (matchStrings ['a', 'b'] ['b']).start.toNat) := by
  exact ⟨⟨1, by decide⟩, by decide⟩

/-- C5 amended: if non-empty `p` occurs exactly in `s`, with smallest
occurrence offset `o`, then `matchStrings s p` returns a successful match
(never `NO_MATCH`) with at most 2 mismatches starting at or before `o`;
and the result has an empty mismatch list with its start an actual
occurrence offset *exactly when* no offset strictly smaller than `o` has a
window within the mismatch threshold (in that case the result is the
zero-mismatch match at `o`; otherwise the scan has already accepted an
earlier, mismatched window). -/
theorem matchStrings_exact_substring_amended (s p : Str) (hp : 0 < p.length)
    (o : Nat) (ho : occursAt s p o) (homin : ∀ j, j < o → ¬ occursAt s p j) :
    matchStrings s p ≠ NO_MATCH ∧
    (matchStrings s p).misses.length ≤ MAX_NUMBER_OF_MISSES ∧
    (matchStrings s p).start ≤ (o : Int) ∧
    (((matchStrings s p).misses = [] ∧
      occursAt s p (matchStrings s p).start.toNat) ↔
      (∀ j, j < o → ¬ qualifies s p j)) := by
  classical
  have hle : o + p.length ≤ s.length := occursAt_le s p o hp ho
  have hoq : qualifies s p o := (occursAt_qualifies s p o ho).1
  have hexq : ∃ k, qualifies s p k := ⟨o, hoq⟩
  have hfind_le : Nat.find hexq ≤ o := Nat.find_min' hexq hoq
  have heq := matchStrings_found s p (by omega) (Nat.find hexq) (by omega)
    (Nat.find_spec hexq) (fun j hj => Nat.find_min hexq hj)
  refine ⟨?_, ?_, ?_, ?_, ?_⟩
  · rw [heq]
    intro hcontra
    have h2 : (p.length : Int) = 0 := congrArg Match.length hcontra
    omega
  · rw [heq]
    have := Nat.find_spec hexq
    unfold qualifies at this
    simpa [missesAt] using this
  · rw [heq]
    show (Nat.find hexq : Int) ≤ (o : Int)
    exact_mod_cast hfind_le
  · intro ⟨_, hocc⟩
    rw [heq] at hocc
    have hocc' : occursAt s p (Nat.find hexq) := hocc
    have hfind_eq : Nat.find hexq = o := by
      rcases Nat.lt_or_ge (Nat.find hexq) o with h | h
      · exact absurd hocc' (homin _ h)
      · omega
    intro j hj
    exact Nat.find_min hexq (by omega)
  · intro hmin
    have hfind_eq : Nat.find hexq = o := by
      rcases Nat.lt_or_ge (Nat.find hexq) o with h | h
      · exact absurd (Nat.find_spec hexq) (hmin _ h)
      · omega
    rw [heq, hfind_eq, (occursAt_qualifies s p o ho).2]
    exact ⟨rfl, ho⟩

/-- Witness for C5's amended theorem at `s = "02lostatsea"`,
`p = "lostatsea"` (smallest exact occurrence at offset 2, no earlier
window within threshold): the result has an empty mismatch list and starts
at an occurrence offset. -/
theorem matchStrings_exact_substring_amended_witness :
    (matchStrings "02lostatsea".toList "lostatsea".toList).misses = [] ∧
    occursAt "02lostatsea".toList "lostatsea".toList
      (matchStrings "02lostatsea".toList "lostatsea".toList).start.toNat :=
  ((matchStrings_exact_substring_amended "02lostatsea".toList
    "lostatsea".toList (by decide) 2 (by decide) (by decide)).2.2.2).mpr
    (by decide)

lemma findMismatchedCharIndicesAux_mem :
    ∀ (a b : Str) (i x : Nat), x ∈ findMismatchedCharIndicesAux a b i →
    i ≤ x ∧ x - i < a.length ∧ x - i < b.length ∧
    a.getD (x - i) ' ' ≠ b.getD (x - i) ' ' := by
  intro a
  induction a with
  | nil => intro b i x h; cases b <;> simp [findMismatchedCharIndicesAux] at h
  | cons c cs ih =>
    intro b i x h
    cases b with
    | nil => simp [findMismatchedCharIndicesAux] at h
    | cons d ds =>
      rw [findMismatchedCharIndicesAux] at h
      by_cases hcd : c ≠ d
      · rw [if_pos hcd] at h
        rcases List.mem_cons.mp h with rfl | h'
        · simpa using hcd
        · obtain ⟨h1, h2, h3, h4⟩ := ih ds (i + 1) x h'
          have hxi : x - i = (x - (i + 1)) + 1 := by omega
          refine ⟨by omega, by simp only [List.length_cons]; omega,
            by simp only [List.length_cons]; omega, ?_⟩
          rw [hxi, List.getD_cons_succ, List.getD_cons_succ]
          exact h4
      · rw [if_neg hcd] at h
        obtain ⟨h1, h2, h3, h4⟩ := ih ds (i + 1) x h
        have hxi : x - i = (x - (i + 1)) + 1 := by omega
        refine ⟨by omega, by simp only [List.length_cons]; omega,
          by simp only [List.length_cons]; omega, ?_⟩
        rw [hxi, List.getD_cons_succ, List.getD_cons_succ]
        exact h4

lemma findMismatchedCharIndicesAux_chain :
    ∀ (a b : Str) (i : Nat),
    List.Chain' (· < ·) (findMismatchedCharIndicesAux a b i) := by
  intro a
  induction a with
  | nil => intro b i; cases b <;> simp [findMismatchedCharIndicesAux]
  | cons c cs ih =>
    intro b i
    cases b with
    | nil => simp [findMismatchedCharIndicesAux]
    | cons d ds =>
      rw [findMismatchedCharIndicesAux]
      by_cases hcd : c ≠ d
      · rw [if_pos hcd]
        refine List.chain'_cons'.mpr ⟨?_, ih ds (i + 1)⟩
        intro y hy
        have hmem : y ∈ findMismatchedCharIndicesAux cs ds (i + 1) :=
          List.mem_of_mem_head? hy
        have := (findMismatchedCharIndicesAux_mem cs ds (i + 1) y hmem).1
        omega
      · rw [if_neg hcd]
        exact ih ds (i + 1)

lemma windowAt_length (s : Str) (o len : Nat) :
    (windowAt s o len).length = min len (s.length - o) := by
  simp [windowAt]

lemma windowAt_getD (s : Str) (o len j : Nat)
    (hj : j < (windowAt s o len).length) :
    (windowAt s o len).getD j ' ' = s.getD (o + j) ' ' := by
  have hlen := windowAt_length s o len
  have hjs : o + j < s.length := by omega
  rw [List.getD_eq_getElem _ _ hj, List.getD_eq_getElem _ _ hjs]
  simp only [windowAt, List.getElem_take, List.getElem_drop]

/-- C9: every successful result of `matchStrings` has strictly increasing
mismatch offsets; each offset `m` satisfies `start ≤ m < start + length`
and marks a position where the normalized haystack differs from the
pattern character at `m - start` — the offsets are absolute indices into
the haystack restricted to the pattern window. -/
theorem matchStrings_mismatchOffsets_spec (s p : Str) (hs : 0 < s.length)
    (hp : 0 < p.length) (h : matchStrings s p ≠ NO_MATCH) :
    List.Chain' (· < ·) (matchStrings s p).misses ∧
    ∀ m ∈ (matchStrings s p).misses,
      (matchStrings s p).start ≤ (m : Int) ∧
      (m : Int) < (matchStrings s p).start + (matchStrings s p).length ∧
      s.getD m ' ' ≠ p.getD (m - (matchStrings s p).start.toNat) ' ' := by
  rcases matchStrings_cases s p with hno | ⟨o, hle, hq, hmin, heq⟩
  · exact absurd hno h
  · rw [heq]
    constructor
    · show List.Chain' (· < ·) (missesAt s p o)
      unfold missesAt findMismatchedCharIndices
      rw [List.chain'_map]
      exact List.Chain'.imp (fun a b hab => by omega)
        (findMismatchedCharIndicesAux_chain _ _ 0)
    · intro m hm
      obtain ⟨j, hj, rfl⟩ := List.mem_map.mp hm
      obtain ⟨_, hj2, hj3, hj4⟩ :=
        findMismatchedCharIndicesAux_mem _ _ 0 j hj
      simp only [Nat.sub_zero] at hj2 hj3 hj4
      have hwl := windowAt_length s o p.length
      have hjw : j < (windowAt s o p.length).length := hj2
      refine ⟨?_, ?_, ?_⟩
      · show (o : Int) ≤ ((j + o : Nat) : Int)
        exact_mod_cast Nat.le_add_left o j
      · show ((j + o : Nat) : Int) < (o : Int) + (p.length : Int)
        push_cast
        omega
      · show s.getD (j + o) ' ' ≠ p.getD ((j + o) - ((o : Int)).toNat) ' '
        have hto : ((o : Int)).toNat = o := Int.toNat_natCast o
        rw [hto, show (j + o) - o = j from by omega,
          show j + o = o + j from by omega,
          ← windowAt_getD s o p.length j hjw]
        exact hj4

/-- Witness for C9 at `s = "abxd"`, `p = "abcd"`: one mismatch at absolute
offset 2. -/
theorem matchStrings_mismatchOffsets_spec_witness :
    0 < "abxd".toList.length ∧ 0 < "abcd".toList.length ∧
    matchStrings "abxd".toList "abcd".toList ≠ NO_MATCH ∧
    (List.Chain' (· < ·) (matchStrings "abxd".toList "abcd".toList).misses ∧
    ∀ m ∈ (matchStrings "abxd".toList "abcd".toList).misses,
      (matchStrings "abxd".toList "abcd".toList).start ≤ (m : Int) ∧
      (m : Int) < (matchStrings "abxd".toList "abcd".toList).start +
        (matchStrings "abxd".toList "abcd".toList).length ∧
      "abxd".toList.getD m ' ' ≠
        "abcd".toList.getD
          (m - (matchStrings "abxd".toList "abcd".toList).start.toNat) ' ') :=
  ⟨by decide, by decide, by decide,
    matchStrings_mismatchOffsets_spec "abxd".toList "abcd".toList
      (by decide) (by decide) (by decide)⟩

lemma findMismatchedCharIndicesAux_nil_left :
    ∀ (b : Str) (i : Nat), findMismatchedCharIndicesAux [] b i = [] := by
  intro b i; cases b <;> rfl

lemma matchStrings_no_or_pos (s p : Str) :
    matchStrings s p = NO_MATCH ∨
    (0 ≤ (matchStrings s p).start ∧ 1 ≤ (matchStrings s p).length) := by
  rcases matchStrings_cases s p with hno | ⟨o, hle, hq, hmin, heq⟩
  · exact Or.inl hno
  · by_cases hp0 : p.length = 0
    · left
      have hq0 : qualifies s p 0 := by
        unfold qualifies
        rw [show windowAt s 0 p.length = [] from by simp [windowAt, hp0],
          findMismatchedCharIndices, findMismatchedCharIndicesAux_nil_left]
        simp [MAX_NUMBER_OF_MISSES]
      have ho0 : o = 0 := by
        by_contra hne
        exact hmin 0 (by omega) hq0
      rw [heq, ho0]
      have : missesAt s p 0 = [] := by
        unfold missesAt
        rw [show windowAt s 0 p.length = [] from by simp [windowAt, hp0],
          findMismatchedCharIndices, findMismatchedCharIndicesAux_nil_left]
        rfl
      rw [this, NO_MATCH, hp0]
      rfl
    · right
      rw [heq]
      refine ⟨Int.natCast_nonneg o, ?_⟩
      show (1 : Int) ≤ (p.length : Int)
      omega

/-- `Match.__eq__` against `NO_MATCH` agrees with structural equality on
every value `matchStrings` can return. -/
def noMatchFaithful (m : Match) : Prop :=
  (matchEq m NO_MATCH = true) ↔ m = NO_MATCH

lemma matchStrings_noMatchFaithful (s p : Str) :
    noMatchFaithful (matchStrings s p) := by
  unfold noMatchFaithful
  constructor
  · intro h
    have hse : (matchStrings s p).start = 0 ∧ (matchStrings s p).length = 0 := by
      simpa [matchEq, NO_MATCH] using h
    rcases matchStrings_no_or_pos s p with hno | ⟨_, hpos⟩
    · exact hno
    · omega
  · intro h
    rw [h]
    rfl

lemma noMatchFaithful_NO_MATCH : noMatchFaithful NO_MATCH := by
  unfold noMatchFaithful
  exact ⟨fun _ => rfl, fun _ => rfl⟩

lemma identifyStep_eq (file : Str) (b : Option Str × Match) (t : Str)
    (hb : noMatchFaithful b.2) :
    identifyStep file b t = selectBestTitleStep file b t ∧
    noMatchFaithful (identifyStep file b t).2 := by
  unfold identifyStep selectBestTitleStep
  have hm := matchStrings_noMatchFaithful file (lowercaseSkippedString t)
  set m := matchStrings file (lowercaseSkippedString t) with hmdef
  by_cases h1 : matchEq m NO_MATCH = true
  · have h1' : m = NO_MATCH := hm.mp h1
    rw [if_pos h1, if_pos h1']
    exact ⟨rfl, hb⟩
  · have h1' : m ≠ NO_MATCH := fun hc => h1 (hm.mpr hc)
    rw [if_neg (by simpa using h1), if_neg h1']
    have hmfaith : noMatchFaithful m := hm
    by_cases h2 : m.length > b.2.length ∧ m.misses.length ≤ b.2.misses.length
    · rw [if_pos h2, if_pos h2]
      exact ⟨rfl, hmfaith⟩
    · rw [if_neg h2, if_neg h2]
      by_cases h3 : m.misses.length < b.2.misses.length
      · rw [if_pos h3, if_pos h3]
        exact ⟨rfl, hmfaith⟩
      · rw [if_neg h3, if_neg h3]
        by_cases h4 : matchEq b.2 NO_MATCH = true
        · have h4' : b.2 = NO_MATCH := hb.mp h4
          rw [if_pos h4, if_pos h4']
          exact ⟨rfl, hmfaith⟩
        · have h4' : b.2 ≠ NO_MATCH := fun hc => h4 (hb.mpr hc)
          rw [if_neg (by simpa using h4), if_neg h4']
          exact ⟨rfl, hb⟩

lemma foldl_identify_eq (file : Str) :
    ∀ (l : List Str) (b : Option Str × Match), noMatchFaithful b.2 →
    l.foldl (identifyStep file) b = l.foldl (selectBestTitleStep file) b := by
  intro l
  induction l with
  | nil => intro b _; rfl
  | cons t ts ih =>
    intro b hb
    obtain ⟨hstep, hinv⟩ := identifyStep_eq file b t hb
    simp only [List.foldl_cons]
    rw [← hstep]
    exact ih (identifyStep file b t) hinv

/-- C2: `identifyTrackFromFilePath` computes exactly the running-best scan
described by the spec's `selectBestTitle` tie-break rules: scan titles in
tracklist order, skip `NoMatch` results, replace the best exactly when
(1) strictly longer with no more mismatches, (2) strictly fewer
mismatches, or (3) no best chosen yet; in every other case the earlier
tracklist entry is kept. -/
theorem identifyTrack_follows_selectBestTitle (stem : Str) (tracklist : List Str) :
    identifyTrackFromFilePath stem tracklist = selectBestTitle stem tracklist := by
  unfold identifyTrackFromFilePath selectBestTitle
  exact foldl_identify_eq (lowercaseSkippedString stem) tracklist
    (none, NO_MATCH) noMatchFaithful_NO_MATCH

/-- C10: `Match` equality is decided only by the `(start, length)` pair,
ignoring the mismatch list; every successful result of `matchStrings` has
`start ≥ 0` and `length` equal to the positive pattern length, so it is
never equal (under `Match.__eq__`) to the `NO_MATCH` sentinel `(0, 0)` nor
to the `USER_DEF_MATCH` sentinel `(-1, -1)`. -/
theorem match_equality_sentinel_spec :
    (∀ a b : Match, matchEq a b = true ↔ a.start = b.start ∧ a.length = b.length) ∧
    (∀ s p : Str, 0 < s.length → 0 < p.length → matchStrings s p ≠ NO_MATCH →
      0 ≤ (matchStrings s p).start ∧
      (matchStrings s p).length = (p.length : Int) ∧
      matchEq (matchStrings s p) NO_MATCH = false ∧
      matchEq (matchStrings s p) USER_DEF_MATCH = false) := by
  constructor
  · intro a b
    simp [matchEq]
  · intro s p hs hp h
    rcases matchStrings_cases s p with hno | ⟨o, hle, hq, hmin, heq⟩
    · exact absurd hno h
    · rw [heq]
      refine ⟨?_, rfl, ?_, ?_⟩
      · exact Int.natCast_nonneg o
      · simp only [matchEq, NO_MATCH]
        simp only [Bool.and_eq_false_iff, beq_eq_false_iff_ne, ne_eq]
        right
        show ¬ (p.length : Int) = 0
        omega
      · simp only [matchEq, USER_DEF_MATCH]
        simp only [Bool.and_eq_false_iff, beq_eq_false_iff_ne, ne_eq]
        right
        show ¬ (p.length : Int) = -1
        omega

/-! ### Normalizer lemmas -/

lemma char_toNat_ofNat (k : Nat) (h : k < 55296) : (Char.ofNat k).toNat = k := by
  rw [Char.ofNat, dif_pos (Or.inl h)]
  rfl

lemma char_eq_iff_toNat (c d : Char) : c = d ↔ c.toNat = d.toNat := by
  constructor
  · intro h; rw [h]
  · intro h
    exact Char.ext (UInt32.toNat.inj h)

lemma isSkippableChar_false_of_toNat (d : Char)
    (h : 64 < d.toNat ∧ d.toNat < 91 ∨ 96 < d.toNat ∧ d.toNat < 123) :
    isSkippableChar d = false := by
  rw [Bool.eq_false_iff]
  intro hc
  unfold isSkippableChar Char.isWhitespace SKIPPABLE_CHARS at hc
  simp only [Bool.or_eq_true, decide_eq_true_eq, List.contains_cons,
    List.contains_nil, beq_iff_eq, Bool.or_false] at hc
  simp only [char_eq_iff_toNat] at hc
  have e1 : (' ' : Char).toNat = 32 := rfl
  have e2 : ('\t' : Char).toNat = 9 := rfl
  have e3 : ('\r' : Char).toNat = 13 := rfl
  have e4 : ('\n' : Char).toNat = 10 := rfl
  have e5 : ('(' : Char).toNat = 40 := rfl
  have e6 : (')' : Char).toNat = 41 := rfl
  have e7 : ('[' : Char).toNat = 91 := rfl
  have e8 : (']' : Char).toNat = 93 := rfl
  have e9 : ('{' : Char).toNat = 123 := rfl
  have e10 : ('}' : Char).toNat = 125 := rfl
  have e11 : ('-' : Char).toNat = 45 := rfl
  have e12 : ('_' : Char).toNat = 95 := rfl
  omega

/-- Lowercasing (which only moves basic latin capitals to `[97,122]`)
never changes whether a character is skippable. -/
lemma isSkippableChar_toLower (c : Char) :
    isSkippableChar c.toLower = isSkippableChar c := by
  rw [Char.toLower]
  split
  · next h =>
    obtain ⟨h1, h2⟩ := h
    have hv : (Char.ofNat (c.toNat + 32)).toNat = c.toNat + 32 :=
      char_toNat_ofNat _ (by omega)
    rw [isSkippableChar_false_of_toNat _ (by omega),
      isSkippableChar_false_of_toNat c (by omega)]
  · rfl

lemma makeSkippedStringMapAux_mem :
    ∀ (cs : Str) (k i : Nat), i ∈ makeSkippedStringMapAux cs k →
    k ≤ i ∧ i < k + cs.length := by
  intro cs
  induction cs with
  | nil => intro k i h; simp [makeSkippedStringMapAux] at h
  | cons c cs' ih =>
    intro k i h
    rw [makeSkippedStringMapAux] at h
    by_cases hc : isSkippableChar c
    · rw [if_pos hc] at h
      have := ih (k + 1) i h
      simp only [List.length_cons]
      omega
    · rw [if_neg hc] at h
      rcases List.mem_cons.mp h with rfl | h'
      · simp only [List.length_cons]; omega
      · have := ih (k + 1) i h'
        simp only [List.length_cons]
        omega

lemma makeSkippedStringMapAux_chain :
    ∀ (cs : Str) (k : Nat),
    List.Chain' (· < ·) (makeSkippedStringMapAux cs k) := by
  intro cs
  induction cs with
  | nil => intro k; simp [makeSkippedStringMapAux]
  | cons c cs' ih =>
    intro k
    rw [makeSkippedStringMapAux]
    by_cases hc : isSkippableChar c
    · rw [if_pos hc]; exact ih (k + 1)
    · rw [if_neg hc]
      refine List.chain'_cons'.mpr ⟨?_, ih (k + 1)⟩
      intro y hy
      have := (makeSkippedStringMapAux_mem cs' (k + 1) y
        (List.mem_of_mem_head? hy)).1
      omega

lemma getD_append_cons :
    ∀ (pre : Str) (c : Char) (l : Str), (pre ++ c :: l).getD pre.length ' ' = c := by
  intro pre
  induction pre with
  | nil => intro c l; rfl
  | cons p ps ih =>
    intro c l
    simp only [List.cons_append, List.length_cons, List.getD_cons_succ]
    exact ih c l

lemma lowercaseSkippedString_eq_map :
    ∀ (cs pre : Str),
    lowercaseSkippedString cs =
      (makeSkippedStringMapAux cs pre.length).map
        (fun i => ((pre ++ cs).getD i ' ').toLower) := by
  intro cs
  induction cs with
  | nil => intro pre; rfl
  | cons c cs' ih =>
    intro pre
    rw [makeSkippedStringMapAux]
    have hpre' : (pre ++ [c]).length = pre.length + 1 := by simp
    have hassoc : (pre ++ [c]) ++ cs' = pre ++ c :: cs' := by simp
    have ih' := ih (pre ++ [c])
    rw [hpre', hassoc] at ih'
    by_cases hc : isSkippableChar c
    · rw [if_pos hc]
      have hlow : isSkippableChar c.toLower = true := by
        rw [isSkippableChar_toLower]; exact hc
      show (List.map Char.toLower (c :: cs')).filter (fun ch => !isSkippableChar ch) = _
      rw [List.map_cons, List.filter_cons_of_neg (by simp [hlow])]
      exact ih'
    · rw [if_neg hc]
      have hlow : isSkippableChar c.toLower = false := by
        rw [isSkippableChar_toLower]
        exact Bool.eq_false_iff.mpr hc
      show (List.map Char.toLower (c :: cs')).filter (fun ch => !isSkippableChar ch) = _
      rw [List.map_cons, List.filter_cons_of_pos (by simp [hlow]), List.map_cons,
        getD_append_cons]
      exact congrArg (fun t => Char.toLower c :: t) ih'

/-- C7: normalization produces a strictly increasing index map of the same
length as the filtered lowercase text, whose entries are valid positions
of the original string, and the character at filtered position `i` is the
lowercased original character at position `map[i]` — so no characters are
reordered. -/
theorem normalization_map_spec (s : Str) :
    List.Chain' (· < ·) (makeSkippedStringMap s) ∧
    (makeSkippedStringMap s).length = (lowercaseSkippedString s).length ∧
    (∀ i ∈ makeSkippedStringMap s, i < s.length) ∧
    lowercaseSkippedString s =
      (makeSkippedStringMap s).map (fun i => (s.getD i ' ').toLower) := by
  have hmap := lowercaseSkippedString_eq_map s []
  simp only [List.nil_append, List.length_nil] at hmap
  unfold makeSkippedStringMap
  refine ⟨makeSkippedStringMapAux_chain s 0, ?_, ?_, hmap⟩
  · rw [hmap, List.length_map]
  · intro i hi
    have := (makeSkippedStringMapAux_mem s 0 i hi).2
    omega

/-- Witness for C7 at `s = "a-b"`: index 2 is in the map and within
bounds. -/
theorem normalization_map_spec_witness :
    2 ∈ makeSkippedStringMap "a-b".toList ∧ 2 < "a-b".toList.length :=
  ⟨by decide, (normalization_map_spec "a-b".toList).2.2.1 2 (by decide)⟩

/-! ### Formatter lemmas -/

lemma stripMarkers_insertIdx :
    ∀ (l : List FmtToken) (i : Nat) (m : Str),
    stripMarkers (l.insertIdx i (.mark m)) = stripMarkers l := by
  intro l
  induction l with
  | nil =>
    intro i m
    cases i with
    | zero => rfl
    | succ n => rfl
  | cons a l' ih =>
    intro i m
    cases i with
    | zero =>
      rw [List.insertIdx_zero]
      show stripMarkers (.mark m :: a :: l') = _
      unfold stripMarkers
      rw [List.filterMap_cons]
    | succ n =>
      rw [List.insertIdx_succ_cons]
      show stripMarkers (a :: l'.insertIdx n (.mark m)) = stripMarkers (a :: l')
      unfold stripMarkers
      rw [List.filterMap_cons, List.filterMap_cons]
      have := ih n m
      unfold stripMarkers at this
      rw [this]

lemma stripMarkers_pyInsert_mark (l : List FmtToken) (i : Nat) (m : Str) :
    stripMarkers (pyInsert l i (.mark m)) = stripMarkers l := by
  unfold pyInsert
  split
  · exact stripMarkers_insertIdx l i m
  · unfold stripMarkers
    rw [List.filterMap_append]
    simp

lemma stripMarkers_map_chr (s : Str) :
    stripMarkers (s.map FmtToken.chr) = s := by
  induction s with
  | nil => rfl
  | cons c cs ih =>
    show c :: stripMarkers (cs.map FmtToken.chr) = c :: cs
    rw [ih]

lemma stripMarkers_skips_foldl (START SKIP : Str) :
    ∀ (skips : List Nat) (l : List FmtToken),
    stripMarkers (skips.foldl
      (fun ts skip => pyInsert (pyInsert ts (skip + 1) (.mark START)) skip (.mark SKIP))
      l) = stripMarkers l := by
  intro skips
  induction skips with
  | nil => intro l; rfl
  | cons k ks ih =>
    intro l
    rw [List.foldl_cons, ih, stripMarkers_pyInsert_mark, stripMarkers_pyInsert_mark]

/-- C6: for every original string and every match whose span indices are
valid for the string's index map, removing all inserted `START`/`SKIP`/`END`
marker tokens from the output of `formatPartiallyMatchedString` reproduces
the original string exactly, character for character. -/
theorem formatPartiallyMatchedString_roundtrip (s : Str) (m : Match)
    (START SKIP ENDM : Str)
    (hstart : m.start.toNat < (makeSkippedStringMap s).length)
    (hstop : (m.start + m.length - 1).toNat < (makeSkippedStringMap s).length)
    (hmiss : ∀ i ∈ m.misses, i < (makeSkippedStringMap s).length) :
    stripMarkers (formatPartiallyMatchedString s m START SKIP ENDM) = s := by
  unfold formatPartiallyMatchedString
  rw [stripMarkers_pyInsert_mark, stripMarkers_skips_foldl,
    stripMarkers_pyInsert_mark, stripMarkers_map_chr]

/-- Witness for C6 on the partially matched filename
`"03 lost_at-se4.mp3"`. -/
theorem formatPartiallyMatchedString_roundtrip_witness :
    stripMarkers (formatPartiallyMatchedString "03 lost_at-se4.mp3".toList
      ⟨2, 9, [10]⟩ "<".toList "!".toList ">".toList) =
    "03 lost_at-se4.mp3".toList :=
  formatPartiallyMatchedString_roundtrip "03 lost_at-se4.mp3".toList
    ⟨2, 9, [10]⟩ "<".toList "!".toList ">".toList
    (by decide) (by decide) (by decide)

/-! ### Write-contract lemmas -/

lemma writeMetadataSets_skip :
    ∀ (metadata : List (Str × Str)) (acc : Tags × Bool),
    (∀ kv ∈ metadata, acc.1 kv.1 = some kv.2) →
    writeMetadataSets acc metadata = acc := by
  intro metadata
  induction metadata with
  | nil => intro acc _; rfl
  | cons kv md ih =>
    intro acc h
    unfold writeMetadataSets
    rw [List.foldl_cons, if_pos (h kv (List.mem_cons_self kv md))]
    exact ih acc (fun kv' h' => h kv' (List.mem_cons_of_mem kv h'))

lemma writeMetadataRemoves_skip :
    ∀ (tagsToRemove : List Str) (acc : Tags × Bool),
    (∀ t ∈ tagsToRemove, acc.1 t = none) →
    writeMetadataRemoves acc tagsToRemove = acc := by
  intro tagsToRemove
  induction tagsToRemove with
  | nil => intro acc _; rfl
  | cons t rm ih =>
    intro acc h
    unfold writeMetadataRemoves
    rw [List.foldl_cons, if_pos (h t (List.mem_cons_self t rm))]
    exact ih acc (fun t' h' => h t' (List.mem_cons_of_mem t h'))

lemma writeMetadataSets_false_iff :
    ∀ (metadata : List (Str × Str)) (acc : Tags × Bool),
    (writeMetadataSets acc metadata).2 = false ↔
    acc.2 = false ∧ ∀ kv ∈ metadata, acc.1 kv.1 = some kv.2 := by
  intro metadata
  induction metadata with
  | nil => intro acc; simp [writeMetadataSets]
  | cons kv md ih =>
    intro acc
    unfold writeMetadataSets
    rw [List.foldl_cons]
    by_cases h : acc.1 kv.1 = some kv.2
    · rw [if_pos h]
      rw [show List.foldl _ acc md = writeMetadataSets acc md from rfl, ih]
      simp only [List.forall_mem_cons, h, true_and]
    · rw [if_neg h]
      rw [show List.foldl _ (setTag acc.1 kv.1 kv.2, true) md =
        writeMetadataSets (setTag acc.1 kv.1 kv.2, true) md from rfl, ih]
      simp only [List.forall_mem_cons, h]
      simp

lemma writeMetadataRemoves_false_iff :
    ∀ (tagsToRemove : List Str) (acc : Tags × Bool),
    (writeMetadataRemoves acc tagsToRemove).2 = false ↔
    acc.2 = false ∧ ∀ t ∈ tagsToRemove, acc.1 t = none := by
  intro tagsToRemove
  induction tagsToRemove with
  | nil => intro acc; simp [writeMetadataRemoves]
  | cons t rm ih =>
    intro acc
    unfold writeMetadataRemoves
    rw [List.foldl_cons]
    by_cases h : acc.1 t = none
    · rw [if_pos h]
      rw [show List.foldl _ acc rm = writeMetadataRemoves acc rm from rfl, ih]
      simp only [List.forall_mem_cons, h, true_and]
    · rw [if_neg h]
      rw [show List.foldl _ (delTag acc.1 t, true) rm =
        writeMetadataRemoves (delTag acc.1 t, true) rm from rfl, ih]
      simp only [List.forall_mem_cons, h]
      simp

lemma setTag_lookup_ne (a : Tags) (k v : Str) (t : Str) (h : t ≠ k) :
    setTag a k v t = a t := by
  unfold setTag
  rw [if_neg h]

lemma writeMetadataSets_frame :
    ∀ (metadata : List (Str × Str)) (acc : Tags × Bool) (t : Str),
    (∀ kv ∈ metadata, kv.1 ≠ t) →
    (writeMetadataSets acc metadata).1 t = acc.1 t := by
  intro metadata
  induction metadata with
  | nil => intro acc t _; rfl
  | cons kv md ih =>
    intro acc t h
    unfold writeMetadataSets
    rw [List.foldl_cons]
    by_cases hc : acc.1 kv.1 = some kv.2
    · rw [if_pos hc]
      exact ih acc t (fun kv' h' => h kv' (List.mem_cons_of_mem kv h'))
    · rw [if_neg hc]
      rw [show List.foldl _ (setTag acc.1 kv.1 kv.2, true) md =
        writeMetadataSets (setTag acc.1 kv.1 kv.2, true) md from rfl]
      rw [ih (setTag acc.1 kv.1 kv.2, true) t
        (fun kv' h' => h kv' (List.mem_cons_of_mem kv h'))]
      exact setTag_lookup_ne acc.1 kv.1 kv.2 t
        (fun hc' => h kv (List.mem_cons_self kv md) hc'.symm)

lemma writeMetadataSets_lookup :
    ∀ (metadata : List (Str × Str)) (acc : Tags × Bool),
    metadata.Pairwise (fun kv kv' => kv.1 ≠ kv'.1) →
    ∀ kv ∈ metadata, (writeMetadataSets acc metadata).1 kv.1 = some kv.2 := by
  intro metadata
  induction metadata with
  | nil => intro acc _ kv h; simp at h
  | cons kv0 md ih =>
    intro acc hpw kv hkv
    have hpw' := (List.pairwise_cons.mp hpw).2
    have hhead := (List.pairwise_cons.mp hpw).1
    rcases List.mem_cons.mp hkv with rfl | hmem
    · unfold writeMetadataSets
      rw [List.foldl_cons]
      by_cases hc : acc.1 kv.1 = some kv.2
      · rw [if_pos hc]
        rw [show List.foldl _ acc md = writeMetadataSets acc md from rfl]
        rw [writeMetadataSets_frame md acc kv.1 (fun kv' h' => (hhead kv' h').symm)]
        exact hc
      · rw [if_neg hc]
        rw [show List.foldl _ (setTag acc.1 kv.1 kv.2, true) md =
          writeMetadataSets (setTag acc.1 kv.1 kv.2, true) md from rfl]
        rw [writeMetadataSets_frame md _ kv.1 (fun kv' h' => (hhead kv' h').symm)]
        simp [setTag]
    · unfold writeMetadataSets
      rw [List.foldl_cons]
      by_cases hc : acc.1 kv0.1 = some kv0.2
      · rw [if_pos hc]
        exact ih acc hpw' kv hmem
      · rw [if_neg hc]
        exact ih (setTag acc.1 kv0.1 kv0.2, true) hpw' kv hmem

lemma writeMetadataRemoves_pres_none :
    ∀ (tagsToRemove : List Str) (acc : Tags × Bool) (t : Str),
    acc.1 t = none →
    (writeMetadataRemoves acc tagsToRemove).1 t = none := by
  intro tagsToRemove
  induction tagsToRemove with
  | nil => intro acc t h; exact h
  | cons r rm ih =>
    intro acc t h
    unfold writeMetadataRemoves
    rw [List.foldl_cons]
    by_cases hc : acc.1 r = none
    · rw [if_pos hc]
      exact ih acc t h
    · rw [if_neg hc]
      refine ih (delTag acc.1 r, true) t ?_
      show delTag acc.1 r t = none
      unfold delTag
      by_cases ht : t = r
      · rw [if_pos ht]
      · rw [if_neg ht]; exact h

lemma writeMetadataRemoves_none :
    ∀ (tagsToRemove : List Str) (acc : Tags × Bool) (t : Str),
    t ∈ tagsToRemove →
    (writeMetadataRemoves acc tagsToRemove).1 t = none := by
  intro tagsToRemove
  induction tagsToRemove with
  | nil => intro acc t h; simp at h
  | cons r rm ih =>
    intro acc t ht
    unfold writeMetadataRemoves
    rw [List.foldl_cons]
    rcases List.mem_cons.mp ht with rfl | hmem
    · by_cases hc : acc.1 t = none
      · rw [if_pos hc]
        exact writeMetadataRemoves_pres_none rm acc t hc
      · rw [if_neg hc]
        refine writeMetadataRemoves_pres_none rm (delTag acc.1 t, true) t ?_
        show delTag acc.1 t t = none
        unfold delTag
        rw [if_pos rfl]
    · by_cases hc : acc.1 r = none
      · rw [if_pos hc]
        exact ih acc t hmem
      · rw [if_neg hc]
        exact ih (delTag acc.1 r, true) t hmem

lemma writeMetadataRemoves_frame :
    ∀ (tagsToRemove : List Str) (acc : Tags × Bool) (t : Str),
    t ∉ tagsToRemove →
    (writeMetadataRemoves acc tagsToRemove).1 t = acc.1 t := by
  intro tagsToRemove
  induction tagsToRemove with
  | nil => intro acc t _; rfl
  | cons r rm ih =>
    intro acc t ht
    have htr : t ≠ r := fun hc => ht (hc ▸ List.mem_cons_self r rm)
    have htm : t ∉ rm := fun hc => ht (List.mem_cons_of_mem r hc)
    unfold writeMetadataRemoves
    rw [List.foldl_cons]
    by_cases hc : acc.1 r = none
    · rw [if_pos hc]
      exact ih acc t htm
    · rw [if_neg hc]
      rw [show List.foldl _ (delTag acc.1 r, true) rm =
        writeMetadataRemoves (delTag acc.1 r, true) rm from rfl]
      rw [ih (delTag acc.1 r, true) t htm]
      show delTag acc.1 r t = acc.1 t
      unfold delTag
      rw [if_neg htr]

lemma writeMetadata_unchanged (audio : Tags) (metadata : List (Str × Str))
    (tagsToRemove : List Str)
    (h1 : ∀ kv ∈ metadata, audio kv.1 = some kv.2)
    (h2 : ∀ t ∈ tagsToRemove, audio t = none) :
    writeMetadata audio metadata tagsToRemove = (audio, false) := by
  unfold writeMetadata
  rw [writeMetadataSets_skip metadata (audio, false) h1,
    writeMetadataRemoves_skip tagsToRemove (audio, false) h2]
  rfl

lemma writeMetadata_false_iff (audio : Tags) (metadata : List (Str × Str))
    (tagsToRemove : List Str) :
    (writeMetadata audio metadata tagsToRemove).2 = false ↔
    (∀ kv ∈ metadata, audio kv.1 = some kv.2) ∧
    (∀ t ∈ tagsToRemove, audio t = none) := by
  constructor
  · intro h
    unfold writeMetadata at h
    simp only at h
    rw [writeMetadataRemoves_false_iff] at h
    obtain ⟨hsets, hrm⟩ := h
    rw [writeMetadataSets_false_iff] at hsets
    obtain ⟨_, hmd⟩ := hsets
    refine ⟨hmd, ?_⟩
    rw [writeMetadataSets_skip metadata (audio, false) hmd] at hrm
    exact hrm
  · intro ⟨h1, h2⟩
    rw [writeMetadata_unchanged audio metadata tagsToRemove h1 h2]

/-- C3: the idempotent-write contract of `writeMetadata`.  (i) A file whose
stored tags already equal every planned value and carries none of the
removable tags is not saved and reports unchanged; (ii) the reported flag
is false exactly when no field differs and no removable tag is present;
(iii) a second run of the same plan on the persisted result reports
unchanged (so a repeated run changes zero files); (iv) the changed-file
counter equals the number of files whose write reported a change. -/
theorem writeMetadata_idempotent_contract (audio : Tags)
    (metadata : List (Str × Str)) (tagsToRemove : List Str) :
    ((∀ kv ∈ metadata, audio kv.1 = some kv.2) →
     (∀ t ∈ tagsToRemove, audio t = none) →
      writeMetadata audio metadata tagsToRemove = (audio, false)) ∧
    ((writeMetadata audio metadata tagsToRemove).2 = false ↔
      (∀ kv ∈ metadata, audio kv.1 = some kv.2) ∧
      (∀ t ∈ tagsToRemove, audio t = none)) ∧
    (metadata.Pairwise (fun kv kv' => kv.1 ≠ kv'.1) →
     (∀ kv ∈ metadata, kv.1 ∉ tagsToRemove) →
      writeMetadata (writeMetadata audio metadata tagsToRemove).1 metadata
        tagsToRemove =
        ((writeMetadata audio metadata tagsToRemove).1, false)) ∧
    (∀ files : List (Tags × List (Str × Str)),
      countChangedFiles files tagsToRemove =
        files.countP (fun f => (writeMetadata f.1 f.2 tagsToRemove).2)) := by
  refine ⟨writeMetadata_unchanged audio metadata tagsToRemove,
    writeMetadata_false_iff audio metadata tagsToRemove, ?_, ?_⟩
  · intro hpw hdisj
    set A := writeMetadataSets (audio, false) metadata with hA
    set R := writeMetadataRemoves A tagsToRemove with hR
    have hpers : (writeMetadata audio metadata tagsToRemove).1 =
        if R.2 then R.1 else audio := rfl
    by_cases hflag : R.2 = true
    · have hp1 : ∀ kv ∈ metadata, R.1 kv.1 = some kv.2 := by
        intro kv hkv
        rw [hR, writeMetadataRemoves_frame tagsToRemove A kv.1 (hdisj kv hkv)]
        exact writeMetadataSets_lookup metadata (audio, false) hpw kv hkv
      have hp2 : ∀ t ∈ tagsToRemove, R.1 t = none := by
        intro t ht
        exact writeMetadataRemoves_none tagsToRemove A t ht
      rw [hpers, if_pos hflag]
      exact writeMetadata_unchanged R.1 metadata tagsToRemove hp1 hp2
    · have hflag' : (writeMetadata audio metadata tagsToRemove).2 = false := by
        simpa [writeMetadata] using Bool.eq_false_iff.mpr hflag
      obtain ⟨h1, h2⟩ :=
        (writeMetadata_false_iff audio metadata tagsToRemove).mp hflag'
      rw [hpers, if_neg hflag]
      exact writeMetadata_unchanged audio metadata tagsToRemove h1 h2
  · intro files
    unfold countChangedFiles
    have : ∀ (fs : List (Tags × List (Str × Str))) (n : Nat),
        fs.foldl (fun counter f =>
          if (writeMetadata f.1 f.2 tagsToRemove).2 then counter + 1 else counter) n =
        n + fs.countP (fun f => (writeMetadata f.1 f.2 tagsToRemove).2) := by
      intro fs
      induction fs with
      | nil => intro n; simp
      | cons f fs' ih =>
        intro n
        rw [List.foldl_cons, List.countP_cons]
        by_cases hc : (writeMetadata f.1 f.2 tagsToRemove).2 = true
        · rw [if_pos hc, ih, hc]
          simp
          omega
        · rw [if_neg hc, ih]
          rw [Bool.eq_false_iff.mpr hc]
          simp
    rw [this files 0, Nat.zero_add]

/-- Witness for C3 with an empty plan against an empty file: no save, no
change reported. -/
theorem writeMetadata_idempotent_contract_witness :
    writeMetadata (fun _ => none) [] [] = ((fun _ => none : Tags), false) :=
  (writeMetadata_idempotent_contract (fun _ => none) [] []).1
    (by simp) (by simp)

/-! ### Review-workflow lemmas -/

lemma isDigit_toNat (c : Char) (h : c.isDigit = true) :
    48 ≤ c.toNat ∧ c.toNat ≤ 57 := by
  unfold Char.isDigit at h
  simp only [Bool.and_eq_true, decide_eq_true_eq] at h
  exact ⟨h.1, h.2⟩

lemma parseInt_ne_nil (r : Str) (k : Int) (h : parseInt r = some k) : r ≠ [] := by
  intro hn
  subst hn
  simp [parseInt] at h

/-- An input line that parses as an integer is never the quit line. -/
lemma parseInt_lower_ne_q (r : Str) (k : Int) (h : parseInt r = some k) :
    lowerStr r ≠ ['q'] := by
  intro hq
  have hr : ∃ c, r = [c] ∧ c.toLower = 'q' := by
    cases r with
    | nil => simp [lowerStr] at hq
    | cons c rest =>
      cases rest with
      | nil => exact ⟨c, rfl, by simpa [lowerStr] using hq⟩
      | cons d ds => simp [lowerStr] at hq
  obtain ⟨c, rfl, hcq⟩ := hr
  by_cases hcm : c = '-'
  · subst hcm
    simp [parseInt, parseDigits] at h
  · rw [parseInt, if_neg hcm] at h
    have hd : c.isDigit = true := by
      by_contra hnd
      rw [parseDigits, if_neg (by simp [Bool.eq_false_iff.mpr hnd])] at h
      simp at h
    obtain ⟨hd1, hd2⟩ := isDigit_toNat c hd
    rw [Char.toLower] at hcq
    split at hcq
    · next hrange =>
      have := congrArg Char.toNat hcq
      rw [char_toNat_ofNat _ (by omega)] at this
      have hq' : ('q' : Char).toNat = 113 := rfl
      omega
    · subst hcq
      exact absurd hd2 (by decide)

lemma promptBoundedInteger_int (lower upper : Int) (signal : Str) (r : Str)
    (rest : List Str) (k : Int) (hk : parseInt r = some k)
    (hlo : lower ≤ k) (hhi : k ≤ upper) :
    promptBoundedInteger lower upper signal (r :: rest) = some (.ok k, rest) := by
  rw [promptBoundedInteger]
  rw [if_neg (fun hc => parseInt_ne_nil r k hk hc.1),
    if_neg (fun hc => parseInt_ne_nil r k hk hc.1),
    if_neg (fun hc => parseInt_lower_ne_q r k hk hc.1)]
  rw [hk]
  show (if k < lower ∨ k > upper then promptBoundedInteger lower upper signal rest
    else some (Except.ok k, rest)) = some (Except.ok k, rest)
  rw [if_neg (by omega)]

/-- C8: the title-choice step of the review workflow.  With a selected
candidate index `choice` (1-based): an empty input line cancels back to
selection leaving every candidate unchanged; an input parsing as `0` sets
the selected candidate's title to the empty string and its match to
`USER_DEF_MATCH`; an input parsing as an in-range `k ≥ 1` sets the
selected candidate's title to the `k`-th tracklist entry and its match to
`USER_DEF_MATCH`; and updating the selected position never changes any
other candidate. -/
theorem titleChoice_spec (tracklist : List Str) (ptms : List PathTitleMatch)
    (choice : Int) (hc1 : 1 ≤ choice) (hc2 : choice ≤ (ptms.length : Int))
    (rest : List Str) :
    (titleChoiceStep tracklist ptms choice ([] :: rest) =
      some (.cont, ptms, rest)) ∧
    (∀ r, parseInt r = some 0 →
      titleChoiceStep tracklist ptms choice (r :: rest) =
        some (.cont, ptms.set (choice - 1).toNat
          { ptms.getD (choice - 1).toNat default with
            title := [], mtch := USER_DEF_MATCH }, rest)) ∧
    (∀ r (k : Int), parseInt r = some k → 1 ≤ k → k ≤ (tracklist.length : Int) →
      titleChoiceStep tracklist ptms choice (r :: rest) =
        some (.cont, ptms.set (choice - 1).toNat
          { ptms.getD (choice - 1).toNat default with
            title := tracklist.getD (k - 1).toNat [],
            mtch := USER_DEF_MATCH }, rest)) ∧
    (∀ (j : Nat) (upd : PathTitleMatch), j ≠ (choice - 1).toNat →
      (ptms.set (choice - 1).toNat upd).getD j default = ptms.getD j default) := by
  refine ⟨?_, ?_, ?_, ?_⟩
  · rw [titleChoiceStep, promptTrackSelect, promptBoundedInteger,
      if_pos ⟨rfl, by decide⟩]
  · intro r hr
    rw [titleChoiceStep, promptTrackSelect,
      promptBoundedInteger_int 0 (tracklist.length : Int) QUIT_CANCEL r rest 0 hr
        (by omega) (by omega)]
    rfl
  · intro r k hr hk1 hk2
    rw [titleChoiceStep, promptTrackSelect,
      promptBoundedInteger_int 0 (tracklist.length : Int) QUIT_CANCEL r rest k hr
        (by omega) (by omega)]
    show some (StepOut.cont, ptms.set (choice - 1).toNat
        { ptms.getD (choice - 1).toNat default with
          title := (if k = 0 then none else
            some (tracklist.getD (k - 1).toNat [])).getD [],
          mtch := USER_DEF_MATCH }, rest) =
      some (StepOut.cont, ptms.set (choice - 1).toNat
        { ptms.getD (choice - 1).toNat default with
          title := tracklist.getD (k - 1).toNat [],
          mtch := USER_DEF_MATCH }, rest)
    rw [if_neg (show ¬(k = 0) from by omega), Option.getD_some]
  · intro j upd hj
    rw [List.getD_eq_getElem?_getD, List.getD_eq_getElem?_getD,
      List.getElem?_set_ne (fun hc => hj hc.symm)]

/-- Witness for C8 on a two-candidate list with tracklist `["x"]`:
input `1` retitles candidate 2 to `"x"` with a `USER_DEF_MATCH`. -/
theorem titleChoice_spec_witness :
    titleChoiceStep ["x".toList] [⟨"a".toList, NO_MATCH, []⟩, ⟨"b".toList, NO_MATCH, []⟩]
      2 (["1".toList]) =
      some (.cont, [⟨"a".toList, NO_MATCH, []⟩,
        ⟨"b".toList, USER_DEF_MATCH, "x".toList⟩], []) := by
  have h := (titleChoice_spec ["x".toList]
    [⟨"a".toList, NO_MATCH, []⟩, ⟨"b".toList, NO_MATCH, []⟩] 2
    (by decide) (by decide) []).2.2.1 "1".toList 1 (by decide) (by decide) (by decide)
  rw [h]
  decide

lemma applyWritePhase_trace (fileTags : Str → Tags)
    (metadataFor : PathTitleMatch → List (Str × Str)) (tagsToRemove : List Str) :
    ∀ (l : List PathTitleMatch) (acc : List Event × Nat),
    ∃ es : List Event,
      (applyWritePhase fileTags metadataFor tagsToRemove acc l).1 = acc.1 ++ es ∧
      ∀ e ∈ es, ∃ p, e = Event.saved p := by
  intro l
  induction l with
  | nil =>
    intro acc
    exact ⟨[], by simp [applyWritePhase], by simp⟩
  | cons ptm l' ih =>
    intro acc
    unfold applyWritePhase
    rw [List.foldl_cons]
    by_cases hb : ptmBool ptm = true
    · rw [if_pos hb]
      by_cases hw : (writeMetadata (fileTags ptm.path) (metadataFor ptm)
          tagsToRemove).2 = true
      · rw [if_pos hw]
        obtain ⟨es, h1, h2⟩ := ih (acc.1 ++ [Event.saved ptm.path], acc.2 + 1)
        refine ⟨Event.saved ptm.path :: es, ?_, ?_⟩
        · rw [show List.foldl _ (acc.1 ++ [Event.saved ptm.path], acc.2 + 1) l' =
            applyWritePhase fileTags metadataFor tagsToRemove
              (acc.1 ++ [Event.saved ptm.path], acc.2 + 1) l' from rfl, h1]
          simp
        · intro e he
          rcases List.mem_cons.mp he with rfl | he'
          · exact ⟨ptm.path, rfl⟩
          · exact h2 e he'
      · rw [if_neg hw]
        exact ih acc
    · rw [if_neg hb]
      exact ih acc

/-- C4: in the interactive album run, every persistence call appears in the
event trace strictly after the event marking the review workflow's
termination with a commit; and if the operator quits during review, the
trace records the abort and contains no persistence call at all. -/
theorem review_resolves_before_writes (ptms : List PathTitleMatch)
    (tracklist : List Str) (inputs : List Str) (fileTags : Str → Tags)
    (metadataFor : PathTitleMatch → List (Str × Str)) (tagsToRemove : List Str) :
    (∀ (i : Nat) (p : Str),
      (runAlbumApply ptms tracklist inputs fileTags metadataFor tagsToRemove).1[i]? =
        some (Event.saved p) →
      ∃ j, j < i ∧
        (runAlbumApply ptms tracklist inputs fileTags metadataFor tagsToRemove).1[j]? =
          some (Event.reviewEnded false)) ∧
    (Event.reviewEnded true ∈
        (runAlbumApply ptms tracklist inputs fileTags metadataFor tagsToRemove).1 →
      ∀ p, Event.saved p ∉
        (runAlbumApply ptms tracklist inputs fileTags metadataFor tagsToRemove).1) := by
  unfold runAlbumApply
  rcases hpc : promptChanges ptms tracklist inputs with _ | ⟨exc, rest⟩
  · constructor
    · intro i p h
      simp at h
    · intro hmem
      simp at hmem
  · cases exc with
    | error u =>
      constructor
      · intro i p h
        cases i with
        | zero => simp at h
        | succ n => simp at h
      · intro _ p hp
        simp at hp
    | ok finalPtms =>
      obtain ⟨es, h1, h2⟩ := applyWritePhase_trace fileTags metadataFor tagsToRemove
        finalPtms ([Event.reviewEnded false], 0)
      have h1' : (applyWritePhase fileTags metadataFor tagsToRemove
          ([Event.reviewEnded false], 0) finalPtms).1 =
          Event.reviewEnded false :: es := by rw [h1]; rfl
      rw [h1']
      constructor
      · intro i p h
        cases i with
        | zero =>
          rw [List.getElem?_cons_zero] at h
          exact absurd (Option.some.inj h) (by intro hc; cases hc)
        | succ n =>
          exact ⟨0, Nat.succ_pos n, by rw [List.getElem?_cons_zero]⟩
      · intro hmem
        rcases List.mem_cons.mp hmem with hc | hr
        · cases hc
        · obtain ⟨p, hp⟩ := h2 _ hr
          cases hp

/-- Witness for C4: with the single input line `q` the run aborts with a
recorded review-abort event and no persistence call. -/
theorem review_resolves_before_writes_witness :
    Event.reviewEnded true ∈
      (runAlbumApply [] [] [['q']] (fun _ _ => none) (fun _ => []) []).1 ∧
    Event.saved "a".toList ∉
      (runAlbumApply [] [] [['q']] (fun _ _ => none) (fun _ => []) []).1 :=
  ⟨by decide,
    (review_resolves_before_writes [] [] [['q']] (fun _ _ => none)
      (fun _ => []) []).2 (by decide) "a".toList⟩

/-- Witness for C10's successful-match part at `s = "ab"`, `p = "ab"`. -/
theorem match_equality_sentinel_spec_witness :
    0 < "ab".toList.length ∧ 0 < "ab".toList.length ∧
    matchStrings "ab".toList "ab".toList ≠ NO_MATCH ∧
    (0 ≤ (matchStrings "ab".toList "ab".toList).start ∧
     (matchStrings "ab".toList "ab".toList).length = ("ab".toList.length : Int) ∧
     matchEq (matchStrings "ab".toList "ab".toList) NO_MATCH = false ∧
     matchEq (matchStrings "ab".toList "ab".toList) USER_DEF_MATCH = false) :=
  ⟨by decide, by decide, by decide,
    match_equality_sentinel_spec.2 "ab".toList "ab".toList
      (by decide) (by decide) (by decide)⟩
